import Mathlib

/-!
Shallow embedding of the semantic code-search notebook
(`examples/Code_search_using_embeddings.ipynb`).

Python strings are modelled as `List Char`; a file is a pair
`(filepath, content)`.  Python functions that can raise are embedded as
`Except Unit`- or `Option`-valued functions (`.error ()` / `none` marks the
raising branch).  The two external collaborators — the embedder
(`get_embedding`) and `cosine_similarity` from `utils.embeddings_utils`,
neither of which is part of this repository's sources — enter as parameters
(the query embedding and the similarity function), respectively as a
definition modelled from the spec's formula.
-/

deriving instance DecidableEq for Except

namespace CodeSearch

/-- Source constant `DEF_PREFIXES = ['def ', 'async def ']`. -/
def DEF_PREFIXES : List (List Char) := [String.toList "def ", String.toList "async def "]

/-- Source constant `NEWLINE = '\n'`. -/
def NEWLINE : Char := '\n'

/-- Embedding of Python `code.index('(')`: the index of the first occurrence
of `'('`, `none` when the character does not occur (Python raises
`ValueError` there). -/
def idxOfParen : List Char → Option Nat
  | [] => none
  | c :: cs => if c == '(' then some 0 else (idxOfParen cs).map (· + 1)

/-- Embedding of `get_function_name(code)`: try the prefixes in order; on the
first match return `code[len(p) : code.index('(')]`.  `.ok none` is Python's
implicit `return None` when no prefix matches; `.error ()` is the
`ValueError` that `code.index('(')` raises when `'('` is absent. -/
def get_function_name (code : List Char) : Except Unit (Option (List Char)) :=
  match DEF_PREFIXES.find? (fun p => p.isPrefixOf code) with
  | some p =>
    match idxOfParen code with
    | some idx => .ok (some ((code.drop p.length).take (idx - p.length)))
    | none => .error ()
  | none => .ok none

/-- The loop condition of `get_until_no_space`:
`len(all_lines[j]) == 0 or all_lines[j][0] in [' ', '\t', ')']`. -/
def contLine : List Char → Bool
  | [] => true
  | c :: _ => c == ' ' || c == '\t' || c == ')'

/-- The `for j in range(i + 1, ...)` loop of `get_until_no_space`: collect
lines while `contLine` holds, stop at the first violating line. -/
def collectRun : List (List Char) → List (List Char)
  | [] => []
  | l :: ls => if contLine l then l :: collectRun ls else []

/-- Embedding of `NEWLINE.join(ret)`. -/
def joinNl : List (List Char) → List Char
  | [] => []
  | [l] => l
  | l :: ls => l ++ NEWLINE :: joinNl ls

/-- Embedding of `get_until_no_space(all_lines, i)`: line `i` joined with the
run of following lines satisfying the loop condition.  `none` is the
`IndexError` Python would raise on `all_lines[i]` for an out-of-range `i`
(never reached by the callers). -/
def get_until_no_space (all_lines : List (List Char)) (i : Nat) : Option (List Char) :=
  match all_lines.drop i with
  | [] => none
  | l :: rest => some (joinNl (l :: collectRun rest))

/-- The test of the inner loop of `get_functions`: whether some element of
`DEF_PREFIXES` is a prefix of the line (the loop `break`s after the first
match, so one record per matching line). -/
def isDefStart (l : List Char) : Bool :=
  DEF_PREFIXES.any (fun p => p.isPrefixOf l)

/-- A record yielded by `get_functions`: the dict
`{'code': ..., 'function_name': ..., 'filepath': ...}`. -/
structure FuncRecord where
  code : List Char
  function_name : Option (List Char)
  filepath : List Char
deriving DecidableEq

/-- Embedding of Python `str.split('\n')` (`''.split('\n') = ['']`,
a trailing newline yields a trailing empty line). -/
def splitNl : List Char → List (List Char)
  | [] => [[]]
  | c :: cs =>
    if c == NEWLINE then [] :: splitNl cs
    else
      match splitNl cs with
      | [] => [[c]]
      | l :: ls => (c :: l) :: ls

/-- Embedding of `file.read().replace('\r', NEWLINE).split(NEWLINE)` in
`get_functions`, applied to the file's content. -/
def pyLines (content : List Char) : List (List Char) :=
  splitNl (content.map fun c => if c == '\r' then NEWLINE else c)

/-- The `for i, l in enumerate(all_lines)` loop of `get_functions`, carried
out over the suffix `all_lines.drop i` together with the running index `i`.
A yielded record propagates any `ValueError` from `get_function_name`
(`.error`), as the consuming list comprehension in
`extract_functions_from_repo` does. -/
def get_functions_go (filepath : List Char) (all_lines : List (List Char)) :
    List (List Char) → Nat → Except Unit (List FuncRecord)
  | [], _ => .ok []
  | l :: rest, i =>
    if isDefStart l then
      match get_until_no_space all_lines i with
      | none => .error ()
      | some code =>
        match get_function_name code with
        | .error e => .error e
        | .ok name =>
          match get_functions_go filepath all_lines rest (i + 1) with
          | .error e => .error e
          | .ok rs => .ok ({ code := code, function_name := name, filepath := filepath } :: rs)
    else
      get_functions_go filepath all_lines rest (i + 1)

/-- Embedding of `get_functions(filepath)`, with the file's content passed in
place of the `open`/`read` (filesystem collaborator). -/
def get_functions (filepath content : List Char) : Except Unit (List FuncRecord) :=
  get_functions_go filepath (pyLines content) (pyLines content) 0

/-- The `print` calls of `extract_functions_from_repo`, as abstract output
events. -/
inductive Message where
  | totalPyFiles (n : Nat)
  | verifyRepoExists
  | totalFunctionsExtracted (n : Nat)
deriving DecidableEq

/-- The list comprehension
`[func for code_file in code_files for func in get_functions(...)]`;
an exception raised while a generator runs propagates and discards the
partial list. -/
def extractAll : List (List Char × List Char) → Except Unit (List FuncRecord)
  | [] => .ok []
  | (fp, content) :: rest =>
    match get_functions fp content with
    | .error e => .error e
    | .ok rs =>
      match extractAll rest with
      | .error e => .error e
      | .ok rs2 => .ok (rs ++ rs2)

/-- Embedding of `extract_functions_from_repo(code_root)`: the glob result
enters as the list of `(filepath, content)` pairs.  Zero matching files
prints two messages and returns `None`; otherwise the functions are
extracted (exceptions propagating) and the count is printed. -/
def extract_functions_from_repo (code_files : List (List Char × List Char)) :
    List Message × Except Unit (Option (List FuncRecord)) :=
  let num_files := code_files.length
  if num_files = 0 then
    ([Message.totalPyFiles 0, Message.verifyRepoExists], .ok none)
  else
    match extractAll code_files with
    | .error e => ([Message.totalPyFiles num_files], .error e)
    | .ok funcs =>
      ([Message.totalPyFiles num_files, Message.totalFunctionsExtracted funcs.length],
        .ok (some funcs))

/-- A row of the pandas DataFrame built in the notebook's data-loading cell:
the three extractor fields plus the `code_embedding` column.  The entry type
of the embedding vector is a parameter (the notebook's floats). -/
structure EmbeddedRecord (α : Type) where
  code : List Char
  function_name : Option (List Char)
  filepath : List Char
  code_embedding : List α
deriving DecidableEq

/-- The DataFrame passed to `search_functions`: its rows and the
`similarities` column, `none` before `df['similarities'] = ...` has run.
The score type is a parameter (the notebook's floats). -/
structure DataFrame (α β : Type) where
  rows : List (EmbeddedRecord α)
  similarities : Option (List β)
deriving DecidableEq

/-- Insert one scored row into a list already sorted by non-increasing score,
before the first strictly smaller score (so equal scores keep the incoming
order: a stable descending sort). -/
def orderedInsertDesc {γ β : Type} [LinearOrder β] (score : γ → β) (x : γ) :
    List γ → List γ
  | [] => [x]
  | y :: ys =>
    if score y ≤ score x then x :: y :: ys else y :: orderedInsertDesc score x ys

/-- Determinization of `df.sort_values('similarities', ascending=False)`:
an insertion sort by non-increasing score.  pandas guarantees a permutation
sorted by the column descending; the order among tied scores is left to its
default algorithm, here fixed as stable. -/
def sortDesc {γ β : Type} [LinearOrder β] (score : γ → β) : List γ → List γ
  | [] => []
  | x :: xs => orderedInsertDesc score x (sortDesc score xs)

/-- Embedding of `search_functions(df, code_query, n, pprint, n_lines)`.
The call `get_embedding(code_query, ...)` is an external collaborator and
enters as the already-computed query `embedding`; `cosine_similarity`
(imported from `utils.embeddings_utils`, outside this repository's sources)
enters as the parameter `cosine_sim`, with an arbitrary linearly ordered
score type standing for the notebook's floats.  The function first writes
the `similarities` column into `df` (an in-place mutation of the caller's
DataFrame, returned here as the first component), then returns
`df.sort_values('similarities', ascending=False).head(n)` — the rows paired
with their scores.  The `pprint` branch only prints and is omitted. -/
def search_functions {α β : Type} [LinearOrder β] (cosine_sim : List α → List α → β)
    (embedding : List α) (df : DataFrame α β) (n : Nat) :
    DataFrame α β × List (EmbeddedRecord α × β) :=
  let scored := df.rows.map fun r => (r, cosine_sim r.code_embedding embedding)
  let df2 : DataFrame α β := { rows := df.rows, similarities := some (scored.map Prod.snd) }
  let res := (sortDesc Prod.snd scored).take n
  (df2, res)

/-- Dot product of two vectors, truncating at the shorter one (the vectors
compared in the notebook all have the embedding model's fixed dimension). -/
noncomputable def dotL (a b : List ℝ) : ℝ := (List.zipWith (· * ·) a b).sum

/-- Magnitude (Euclidean norm) of a vector. -/
noncomputable def magnitude (a : List ℝ) : ℝ := Real.sqrt (dotL a a)

/-- Modelled from the spec: `cosine_similarity` is imported from
`utils.embeddings_utils`, which is not among this repository's source files;
the spec defines the score as "dot product divided by the product of the two
vectors' magnitudes", here over the real numbers in place of floats. -/
noncomputable def cosine_similarity (a b : List ℝ) : ℝ :=
  dotL a b / (magnitude a * magnitude b)

/-- Character list of the source constant `'def '` (for rewriting). -/
def defChars : List Char := ['d', 'e', 'f', ' ']

/-- Character list of the source constant `'async def '` (for rewriting). -/
def asyncChars : List Char := ['a', 's', 'y', 'n', 'c', ' ', 'd', 'e', 'f', ' ']

/-- An integer dot product, a deterministic stand-in for the external
similarity score in concrete witness corpora. -/
def dotZ (a b : List Int) : Int := (List.zipWith (· * ·) a b).sum

/-- Concrete lines for exercising `get_until_no_space`. -/
def c2Lines : List (List Char) :=
  [String.toList "x = 0", String.toList "def f():", String.toList "    return 1",
    String.toList ")", String.toList "y = 2"]

/-- Concrete file with an indented nested definition. -/
def nestedContent : List Char :=
  String.toList "def outer():\n    def inner():\n        return 1"

/-- Concrete one-file repository for the extractor witness. -/
def c3Files : List (List Char × List Char) :=
  [(String.toList "a.py",
    String.toList "def f(x):\n    return x\n\nasync def g():\n    pass")]

/-- Concrete corpus row for the search witnesses. -/
def c1Row1 : EmbeddedRecord Int :=
  ⟨String.toList "def add(a, b):\n    return a + b", some (String.toList "add"),
    String.toList "m.py", [1, 0]⟩

/-- Second concrete corpus row for the search witnesses. -/
def c1Row2 : EmbeddedRecord Int :=
  ⟨String.toList "def sub(a, b):\n    return a - b", some (String.toList "sub"),
    String.toList "m.py", [0, 1]⟩

/-- Concrete two-row corpus, `similarities` column not yet written. -/
def c1Df : DataFrame Int Int := ⟨[c1Row1, c1Row2], none⟩

example :
    get_function_name (String.toList "def add(a, b):") =
      .ok (some (String.toList "add")) := by decide

example :
    get_function_name (String.toList "async def fetch(url):") =
      .ok (some (String.toList "fetch")) := by decide

example : get_function_name (String.toList "x = 1") = .ok none := by decide

example : get_function_name (String.toList "def broken") = .error () := by decide

example :
    get_until_no_space [String.toList "def f():", String.toList "    return 1",
        String.toList "x = 2"] 0 =
      some (String.toList "def f():\n    return 1") := by decide

example :
    get_functions (String.toList "a.py") (String.toList "def f(x):\n    return x\n\ndef g():\n    pass") =
      .ok [⟨String.toList "def f(x):\n    return x\n", some (String.toList "f"), String.toList "a.py"⟩,
        ⟨String.toList "def g():\n    pass", some (String.toList "g"), String.toList "a.py"⟩] := by
  decide

theorem collectRun_prefix (xs : List (List Char)) : collectRun xs <+: xs := by
  induction xs with
  | nil => simp [collectRun]
  | cons l ls ih =>
    cases h : contLine l with
    | true =>
      obtain ⟨t, ht⟩ := ih
      exact ⟨t, by simp [collectRun, h, ht]⟩
    | false => exact ⟨l :: ls, by simp [collectRun, h]⟩

theorem collectRun_sat (xs : List (List Char)) : ∀ l ∈ collectRun xs, contLine l = true := by
  induction xs with
  | nil => simp [collectRun]
  | cons x ls ih =>
    intro l hl
    cases h : contLine x with
    | true =>
      simp only [collectRun, h, if_true] at hl
      rcases List.mem_cons.mp hl with rfl | hl
      · exact h
      · exact ih l hl
    | false => simp [collectRun, h] at hl

theorem collectRun_max (xs : List (List Char)) :
    ∀ l rest, xs = collectRun xs ++ l :: rest → contLine l = false := by
  induction xs with
  | nil => intro l rest h; simp [collectRun] at h
  | cons x ls ih =>
    intro l rest h
    cases hc : contLine x with
    | true =>
      simp only [collectRun, hc, if_true, List.cons_append, List.cons.injEq] at h
      exact ih l rest h.2
    | false =>
      simp only [collectRun, hc, Bool.false_eq_true, if_false, List.nil_append,
        List.cons.injEq] at h
      exact h.1 ▸ hc

/-- C2: on a valid line index `i`, `get_until_no_space` returns line `i`
joined by newline with a run of the immediately following lines, where the
run is an initial segment of the following lines, every collected line is
empty or begins with a space, a tab or a closing parenthesis, the run is
maximal (the first line after it violates the condition), and a definition
on the final line yields exactly that single line. -/
theorem get_until_no_space_spec (all_lines : List (List Char)) (i : Nat)
    (h : i < all_lines.length) :
    ∃ run : List (List Char),
      get_until_no_space all_lines i = some (joinNl (all_lines[i] :: run))
      ∧ run <+: all_lines.drop (i + 1)
      ∧ (∀ l ∈ run, contLine l = true)
      ∧ (∀ l rest, all_lines.drop (i + 1) = run ++ l :: rest → contLine l = false)
      ∧ (i + 1 = all_lines.length → get_until_no_space all_lines i = some all_lines[i]) := by
  refine ⟨collectRun (all_lines.drop (i + 1)), ?_, collectRun_prefix _, collectRun_sat _,
    collectRun_max _, ?_⟩
  · rw [get_until_no_space, List.drop_eq_getElem_cons h]
  · intro hlast
    rw [get_until_no_space, List.drop_eq_getElem_cons h, hlast, List.drop_length]
    simp [collectRun, joinNl]

theorem get_until_no_space_spec_witness :
    (1 < c2Lines.length)
    ∧ get_until_no_space c2Lines 1 = some (String.toList "def f():\n    return 1\n)")
    ∧ (∃ run : List (List Char),
        get_until_no_space c2Lines 1 = some (joinNl (c2Lines[1] :: run))
        ∧ run <+: c2Lines.drop 2
        ∧ (∀ l ∈ run, contLine l = true)
        ∧ (∀ l rest, c2Lines.drop 2 = run ++ l :: rest → contLine l = false)
        ∧ (1 + 1 = c2Lines.length → get_until_no_space c2Lines 1 = some c2Lines[1])) :=
  ⟨by decide, by decide, get_until_no_space_spec c2Lines 1 (by decide)⟩

/-- C7: with zero matching files the extractor prints the zero file count and
the diagnostic message, and returns `None` without raising; nothing in the
return value distinguishes an empty root from a missing one. -/
theorem extract_empty_root :
    extract_functions_from_repo [] =
      ([Message.totalPyFiles 0, Message.verifyRepoExists], Except.ok none) := rfl

theorem toList_def : String.toList "def " = defChars := rfl

theorem toList_async : String.toList "async def " = asyncChars := rfl

theorem idxOfParen_append (u t : List Char) (hu : '(' ∉ u) :
    idxOfParen (u ++ '(' :: t) = some u.length := by
  induction u with
  | nil => simp [idxOfParen]
  | cons c cs ih =>
    have hc : (c == '(') = false := by
      simp only [beq_eq_false_iff_ne, ne_eq]
      intro h
      exact hu (by simp [h])
    simp [idxOfParen, hc, ih fun hm => hu (List.mem_cons_of_mem _ hm)]

theorem idxOfParen_eq_none (u : List Char) (hu : '(' ∉ u) : idxOfParen u = none := by
  induction u with
  | nil => rfl
  | cons c cs ih =>
    have hc : (c == '(') = false := by
      simp only [beq_eq_false_iff_ne, ne_eq]
      intro h
      exact hu (by simp [h])
    simp [idxOfParen, hc, ih fun hm => hu (List.mem_cons_of_mem _ hm)]

theorem idxOfParen_isSome (u : List Char) (hu : '(' ∈ u) : ∃ k, idxOfParen u = some k := by
  induction u with
  | nil => simp at hu
  | cons c cs ih =>
    by_cases hc : c = '('
    · exact ⟨0, by simp [idxOfParen, hc]⟩
    · have hmem : '(' ∈ cs := by
        rcases List.mem_cons.mp hu with h | h
        · exact absurd h.symm hc
        · exact h
      obtain ⟨k, hk⟩ := ih hmem
      have hcb : (c == '(') = false := by simp [hc]
      exact ⟨k + 1, by simp [idxOfParen, hcb, hk]⟩

theorem defChars_not_prefix_cons (c : Char) (x : List Char) (hc : c ≠ 'd') :
    defChars.isPrefixOf (c :: x) = false := by
  have hb : (('d' : Char) == c) = false := by
    simp only [beq_eq_false_iff_ne, ne_eq]
    exact fun h => hc h.symm
  simp [defChars, List.isPrefixOf, hb]

/-- C4: on input `p ++ s ++ '(' :: t` with `p` one of the definition
prefixes and no `'('` in `s`, `get_function_name` returns exactly `s`, the
substring between the matched prefix and the first opening parenthesis; on
an input starting with no prefix it returns `None`. -/
theorem get_function_name_spec :
    (∀ p s t : List Char, p ∈ DEF_PREFIXES → '(' ∉ s →
      get_function_name (p ++ s ++ '(' :: t) = Except.ok (some s))
    ∧ (∀ code : List Char, (∀ p ∈ DEF_PREFIXES, ¬ p <+: code) →
      get_function_name code = Except.ok none) := by
  constructor
  · intro p s t hp hs
    have hp2 : p = String.toList "def " ∨ p = String.toList "async def " := by
      simpa [DEF_PREFIXES] using hp
    have hpnp : '(' ∉ p := by
      rcases hp2 with rfl | rfl <;> decide
    rw [List.append_assoc]
    have hfind : DEF_PREFIXES.find? (fun q => q.isPrefixOf (p ++ (s ++ '(' :: t))) = some p := by
      rcases hp2 with rfl | rfl
      · exact List.find?_cons_of_pos _
          (List.isPrefixOf_iff_prefix.mpr (List.prefix_append _ _))
      · have h1 : ¬(defChars.isPrefixOf (String.toList "async def " ++ (s ++ '(' :: t)) = true) := by
          rw [toList_async,
            show asyncChars ++ (s ++ '(' :: t) =
              'a' :: (['s', 'y', 'n', 'c', ' ', 'd', 'e', 'f', ' '] ++ (s ++ '(' :: t)) from rfl,
            defChars_not_prefix_cons 'a' _ (by decide)]
          exact by decide
        have h2 : (String.toList "async def ").isPrefixOf
            (String.toList "async def " ++ (s ++ '(' :: t)) = true :=
          List.isPrefixOf_iff_prefix.mpr (List.prefix_append _ _)
        rw [show DEF_PREFIXES = [defChars, String.toList "async def "] from rfl]
        have step1 :
            List.find? (fun q => q.isPrefixOf (String.toList "async def " ++ (s ++ '(' :: t)))
              [defChars, String.toList "async def "] =
            List.find? (fun q => q.isPrefixOf (String.toList "async def " ++ (s ++ '(' :: t)))
              [String.toList "async def "] :=
          List.find?_cons_of_neg _ h1
        have step2 :
            List.find? (fun q => q.isPrefixOf (String.toList "async def " ++ (s ++ '(' :: t)))
              [String.toList "async def "] = some (String.toList "async def ") :=
          List.find?_cons_of_pos _ h2
        rw [step1, step2]
    have hidx : idxOfParen (p ++ (s ++ '(' :: t)) = some (p.length + s.length) := by
      rw [← List.append_assoc]
      rw [idxOfParen_append (p ++ s) t (by
        simp only [List.mem_append]
        rintro (h | h)
        · exact hpnp h
        · exact hs h)]
      simp
    simp only [get_function_name, hfind, hidx]
    rw [List.drop_left, Nat.add_sub_cancel_left, List.take_left]
  · intro code hnp
    have hfind : DEF_PREFIXES.find? (fun q => q.isPrefixOf code) = none :=
      List.find?_eq_none.mpr fun q hq h =>
        hnp q hq (List.isPrefixOf_iff_prefix.mp h)
    simp [get_function_name, hfind]

theorem get_function_name_spec_witness :
    ((String.toList "def " ∈ DEF_PREFIXES ∧ '(' ∉ String.toList "foo")
      ∧ get_function_name (String.toList "def " ++ String.toList "foo" ++
          '(' :: String.toList "a, b):") = Except.ok (some (String.toList "foo")))
    ∧ ((∀ p ∈ DEF_PREFIXES, ¬ p <+: String.toList "x = 1")
      ∧ get_function_name (String.toList "x = 1") = Except.ok none) :=
  ⟨⟨⟨by decide, by decide⟩, get_function_name_spec.1 _ _ _ (by decide) (by decide)⟩,
    ⟨by decide, get_function_name_spec.2 _ (by decide)⟩⟩

/-- C10: `get_function_name` is defined only when the code contains an
opening parenthesis: on an input starting with a definition prefix but
containing no `'('` it raises (the `.error` branch of the embedding), and
whenever `'('` occurs in the input the error branch is unreachable. -/
theorem get_function_name_paren (code : List Char) :
    ((∃ p ∈ DEF_PREFIXES, p <+: code) → '(' ∉ code →
      get_function_name code = Except.error ())
    ∧ ('(' ∈ code → ∃ r, get_function_name code = Except.ok r) := by
  constructor
  · rintro ⟨p, hp, hpre⟩ hnp
    have hsome : (DEF_PREFIXES.find? (fun q => q.isPrefixOf code)).isSome = true :=
      List.find?_isSome.mpr ⟨p, hp, List.isPrefixOf_iff_prefix.mpr hpre⟩
    obtain ⟨q, hq⟩ := Option.isSome_iff_exists.mp hsome
    simp [get_function_name, hq, idxOfParen_eq_none code hnp]
  · intro hmem
    cases hfind : DEF_PREFIXES.find? (fun q => q.isPrefixOf code) with
    | none => exact ⟨none, by simp [get_function_name, hfind]⟩
    | some q =>
      obtain ⟨k, hk⟩ := idxOfParen_isSome code hmem
      exact ⟨some ((code.drop q.length).take (k - q.length)),
        by simp [get_function_name, hfind, hk]⟩

theorem get_function_name_paren_witness :
    (((∃ p ∈ DEF_PREFIXES, p <+: String.toList "def broken")
        ∧ '(' ∉ String.toList "def broken")
      ∧ get_function_name (String.toList "def broken") = Except.error ())
    ∧ ('(' ∈ String.toList "def f(x):"
      ∧ ∃ r, get_function_name (String.toList "def f(x):") = Except.ok r) :=
  ⟨⟨⟨by decide, by decide⟩,
      (get_function_name_paren _).1 (by decide) (by decide)⟩,
    ⟨by decide, (get_function_name_paren _).2 (by decide)⟩⟩

theorem prefix_joinNl (l : List Char) (xs : List (List Char)) : l <+: joinNl (l :: xs) := by
  cases xs with
  | nil => simp [joinNl]
  | cons y ys =>
    show l <+: l ++ NEWLINE :: joinNl (y :: ys)
    exact List.prefix_append _ _

theorem joinNl_cons_ne_nil (l : List Char) (xs : List (List Char)) (h : l ≠ []) :
    joinNl (l :: xs) ≠ [] := by
  cases xs with
  | nil => simpa [joinNl] using h
  | cons y ys => simp [joinNl]

theorem isDefStart_exists {l : List Char} (h : isDefStart l = true) :
    ∃ p ∈ DEF_PREFIXES, p <+: l := by
  obtain ⟨p, hp, hpre⟩ := List.any_eq_true.mp h
  exact ⟨p, hp, List.isPrefixOf_iff_prefix.mp hpre⟩

theorem isDefStart_ne_nil {l : List Char} (h : isDefStart l = true) : l ≠ [] := by
  obtain ⟨p, hp, hpre⟩ := isDefStart_exists h
  rintro rfl
  obtain ⟨t, ht⟩ := hpre
  obtain ⟨rfl, -⟩ := List.append_eq_nil.mp ht
  exact absurd hp (by decide)

theorem get_functions_go_ok (fp : List Char) (all_lines : List (List Char))
    (H : ∀ l ∈ all_lines, isDefStart l = true → '(' ∈ l) :
    ∀ (suf : List (List Char)) (i : Nat), all_lines.drop i = suf →
      ∃ rs, get_functions_go fp all_lines suf i = Except.ok rs
        ∧ rs.length = (suf.filter isDefStart).length
        ∧ ∀ r ∈ rs, r.code ≠ [] := by
  intro suf
  induction suf with
  | nil =>
    intro i hdrop
    exact ⟨[], rfl, by simp, by simp⟩
  | cons l rest ih =>
    intro i hdrop
    have hdrop1 : all_lines.drop (i + 1) = rest := by
      rw [← List.tail_drop, hdrop]
      rfl
    have hmem : l ∈ all_lines :=
      List.mem_of_mem_drop (hdrop.symm ▸ List.mem_cons_self l rest)
    obtain ⟨rs, hgo, hlen, hcode⟩ := ih (i + 1) hdrop1
    cases hds : isDefStart l with
    | false =>
      refine ⟨rs, ?_, ?_, hcode⟩
      · simpa [get_functions_go, hds] using hgo
      · simpa [List.filter_cons, hds] using hlen
    | true =>
      have hgus : get_until_no_space all_lines i = some (joinNl (l :: collectRun rest)) := by
        rw [get_until_no_space, hdrop]
      have hparen : '(' ∈ joinNl (l :: collectRun rest) :=
        (prefix_joinNl l _).subset (H l hmem hds)
      have hname : ∃ name, get_function_name (joinNl (l :: collectRun rest)) = Except.ok name := by
        obtain ⟨p, hp, hpre⟩ := isDefStart_exists hds
        have hpcode : p <+: joinNl (l :: collectRun rest) := hpre.trans (prefix_joinNl l _)
        have hsome : (DEF_PREFIXES.find?
            (fun q => q.isPrefixOf (joinNl (l :: collectRun rest)))).isSome = true :=
          List.find?_isSome.mpr ⟨p, hp, List.isPrefixOf_iff_prefix.mpr hpcode⟩
        obtain ⟨q, hq⟩ := Option.isSome_iff_exists.mp hsome
        obtain ⟨k, hk⟩ := idxOfParen_isSome _ hparen
        exact ⟨some (((joinNl (l :: collectRun rest)).drop q.length).take (k - q.length)),
          by simp [get_function_name, hq, hk]⟩
      obtain ⟨name, hname⟩ := hname
      refine ⟨⟨joinNl (l :: collectRun rest), name, fp⟩ :: rs, ?_, ?_, ?_⟩
      · simp [get_functions_go, hds, hgus, hname, hgo]
      · simp [List.filter_cons, hds, hlen]
      · intro r hr
        rcases List.mem_cons.mp hr with rfl | hr
        · exact joinNl_cons_ne_nil l _ (isDefStart_ne_nil hds)
        · exact hcode r hr

theorem extractAll_ok :
    ∀ code_files : List (List Char × List Char),
      (∀ fc ∈ code_files, ∀ l ∈ pyLines fc.2, isDefStart l = true → '(' ∈ l) →
      ∃ funcs, extractAll code_files = Except.ok funcs
        ∧ funcs.length =
          (code_files.map fun fc => ((pyLines fc.2).filter isDefStart).length).sum
        ∧ ∀ r ∈ funcs, r.code ≠ [] := by
  intro code_files
  induction code_files with
  | nil => exact fun _ => ⟨[], rfl, by simp, by simp⟩
  | cons fc rest ih =>
    intro H
    obtain ⟨fp, content⟩ := fc
    obtain ⟨rs, hgo, hlen, hcode⟩ :=
      get_functions_go_ok fp (pyLines content)
        (fun l hl => H (fp, content) (List.mem_cons_self _ _) l hl) (pyLines content) 0 rfl
    obtain ⟨funcs, hrec, hreclen, hreccode⟩ := ih fun fc hfc => H fc (List.mem_cons_of_mem _ hfc)
    refine ⟨rs ++ funcs, ?_, ?_, ?_⟩
    · simp [extractAll, get_functions, hgo, hrec]
    · simp [hlen, hreclen]
    · intro r hr
      rcases List.mem_append.mp hr with hr | hr
      · exact hcode r hr
      · exact hreccode r hr

/-- C3: on a nonempty list of matching files in which every definition-start
line contains an opening parenthesis (as every genuine Python function
definition does), the extractor succeeds and returns one record per
definition-start line — `F` records for `F` definition starts across the
files — and every returned record has a non-empty `code` field. -/
theorem extract_functions_count (code_files : List (List Char × List Char))
    (hne : code_files ≠ [])
    (H : ∀ fc ∈ code_files, ∀ l ∈ pyLines fc.2, isDefStart l = true → '(' ∈ l) :
    ∃ funcs,
      extract_functions_from_repo code_files =
        ([Message.totalPyFiles code_files.length,
          Message.totalFunctionsExtracted funcs.length], Except.ok (some funcs))
      ∧ funcs.length =
        (code_files.map fun fc => ((pyLines fc.2).filter isDefStart).length).sum
      ∧ ∀ r ∈ funcs, r.code ≠ [] := by
  obtain ⟨funcs, hex, hlen, hcode⟩ := extractAll_ok code_files H
  refine ⟨funcs, ?_, hlen, hcode⟩
  have hlen0 : ¬code_files.length = 0 := by simpa [List.length_eq_zero] using hne
  simp [extract_functions_from_repo, hlen0, hex]

theorem extract_functions_count_witness :
    (c3Files ≠ []
      ∧ ∀ fc ∈ c3Files, ∀ l ∈ pyLines fc.2, isDefStart l = true → '(' ∈ l)
    ∧ ∃ funcs,
      extract_functions_from_repo c3Files =
        ([Message.totalPyFiles c3Files.length,
          Message.totalFunctionsExtracted funcs.length], Except.ok (some funcs))
      ∧ funcs.length =
        (c3Files.map fun fc => ((pyLines fc.2).filter isDefStart).length).sum
      ∧ ∀ r ∈ funcs, r.code ≠ [] :=
  ⟨⟨by decide, by decide⟩, extract_functions_count c3Files (by decide) (by decide)⟩

theorem asyncChars_not_prefix_cons (c : Char) (x : List Char) (hc : c ≠ 'a') :
    asyncChars.isPrefixOf (c :: x) = false := by
  have hb : (('a' : Char) == c) = false := by
    simp only [beq_eq_false_iff_ne, ne_eq]
    exact fun h => hc h.symm
  simp [asyncChars, List.isPrefixOf, hb]

theorem not_defStart_cons (c : Char) (x : List Char) (h1 : c ≠ 'd') (h2 : c ≠ 'a') :
    isDefStart (c :: x) = false := by
  rw [isDefStart, show DEF_PREFIXES = [defChars, asyncChars] from rfl]
  simp [defChars_not_prefix_cons c x h1, asyncChars_not_prefix_cons c x h2]

theorem contLine_not_defStart (l : List Char) (h : contLine l = true) :
    isDefStart l = false := by
  cases l with
  | nil => decide
  | cons c cs =>
    have hc : (c = ' ' ∨ c = '\t') ∨ c = ')' := by simpa [contLine] using h
    rcases hc with (rfl | rfl) | rfl
    · exact not_defStart_cons _ _ (by decide) (by decide)
    · exact not_defStart_cons _ _ (by decide) (by decide)
    · exact not_defStart_cons _ _ (by decide) (by decide)

theorem mem_infix_joinNl :
    ∀ (xs : List (List Char)) (hd0 l : List Char), l ∈ xs → l <:+: joinNl (hd0 :: xs) := by
  intro xs
  induction xs with
  | nil => intro hd0 l hl; simp at hl
  | cons x xs' ih =>
    intro hd0 l hl
    have hsuf : joinNl (x :: xs') <:+: joinNl (hd0 :: x :: xs') :=
      List.IsSuffix.isInfix ⟨hd0 ++ [NEWLINE], by simp [joinNl]⟩
    rcases List.mem_cons.mp hl with rfl | hl
    · exact (prefix_joinNl l xs').isInfix.trans hsuf
    · exact (ih x l hl).trans hsuf

/-- C6 counterexample: a file whose nested (indented) inner definition is
embedded in the enclosing record's `code`, yet the extractor emits exactly
one record and none for the inner definition — the inner start line, being
indented, matches no definition prefix, so the separate record the claim
describes never appears. -/
theorem nested_def_no_own_record_cex :
    (∃ l ∈ pyLines nestedContent,
      l.drop 4 = String.toList "def inner():" ∧ isDefStart l = false)
    ∧ get_functions (String.toList "m.py") nestedContent =
        Except.ok [⟨String.toList "def outer():\n    def inner():\n        return 1",
          some (String.toList "outer"), String.toList "m.py"⟩]
    ∧ String.toList "def inner():" <:+:
        String.toList "def outer():\n    def inner():\n        return 1" := by decide

/-- C6 amended: every line collected into a record's `code` after its start
line fails `isDefStart` — an indented nested definition never yields a
record of its own — while each such collected line is embedded (as an infix)
in the enclosing `code` field. -/
theorem nested_def_lines_embedded (all_lines : List (List Char)) (i : Nat)
    (code : List Char) (h : get_until_no_space all_lines i = some code) :
    ∀ l ∈ collectRun (all_lines.drop (i + 1)), isDefStart l = false ∧ l <:+: code := by
  cases hd : all_lines.drop i with
  | nil => rw [get_until_no_space, hd] at h; exact absurd h (by simp)
  | cons hd0 rest =>
    rw [get_until_no_space, hd] at h
    obtain rfl : joinNl (hd0 :: collectRun rest) = code := Option.some.inj h
    have hrest : all_lines.drop (i + 1) = rest := by
      rw [← List.tail_drop, hd]
      rfl
    rw [hrest]
    intro l hl
    exact ⟨contLine_not_defStart l (collectRun_sat rest l hl), mem_infix_joinNl _ hd0 l hl⟩

theorem nested_def_lines_embedded_witness :
    (get_until_no_space (pyLines nestedContent) 0 =
        some (String.toList "def outer():\n    def inner():\n        return 1")
      ∧ String.toList "    def inner():" ∈ collectRun ((pyLines nestedContent).drop 1))
    ∧ (isDefStart (String.toList "    def inner():") = false
      ∧ String.toList "    def inner():" <:+:
          String.toList "def outer():\n    def inner():\n        return 1") :=
  ⟨⟨by decide, by decide⟩,
    nested_def_lines_embedded (pyLines nestedContent) 0
      (String.toList "def outer():\n    def inner():\n        return 1") (by decide)
      (String.toList "    def inner():") (by decide)⟩

theorem orderedInsertDesc_perm {γ β : Type} [LinearOrder β] (score : γ → β) (x : γ)
    (l : List γ) : (orderedInsertDesc score x l).Perm (x :: l) := by
  induction l with
  | nil => exact List.Perm.refl _
  | cons y ys ih =>
    show (if score y ≤ score x then x :: y :: ys else y :: orderedInsertDesc score x ys).Perm
      (x :: y :: ys)
    by_cases h : score y ≤ score x
    · rw [if_pos h]
    · rw [if_neg h]
      exact (ih.cons y).trans (List.Perm.swap x y ys)

theorem sortDesc_perm {γ β : Type} [LinearOrder β] (score : γ → β) (l : List γ) :
    (sortDesc score l).Perm l := by
  induction l with
  | nil => exact List.Perm.refl _
  | cons x xs ih =>
    show (orderedInsertDesc score x (sortDesc score xs)).Perm (x :: xs)
    exact (orderedInsertDesc_perm score x _).trans (ih.cons x)

theorem orderedInsertDesc_sorted {γ β : Type} [LinearOrder β] (score : γ → β) (x : γ)
    {l : List γ} (h : List.Sorted (fun a b => score b ≤ score a) l) :
    List.Sorted (fun a b => score b ≤ score a) (orderedInsertDesc score x l) := by
  induction l with
  | nil => simp [orderedInsertDesc]
  | cons y ys ih =>
    obtain ⟨hy, hys⟩ := List.sorted_cons.mp h
    show List.Sorted _ (if score y ≤ score x then x :: y :: ys
      else y :: orderedInsertDesc score x ys)
    by_cases hc : score y ≤ score x
    · rw [if_pos hc]
      refine List.sorted_cons.mpr ⟨?_, h⟩
      intro b hb
      rcases List.mem_cons.mp hb with rfl | hb
      · exact hc
      · exact (hy b hb).trans hc
    · rw [if_neg hc]
      refine List.sorted_cons.mpr ⟨?_, ih hys⟩
      intro b hb
      have hb2 : b ∈ x :: ys := (orderedInsertDesc_perm score x ys).subset hb
      rcases List.mem_cons.mp hb2 with rfl | hb2
      · exact le_of_not_le hc
      · exact hy b hb2

theorem sortDesc_sorted {γ β : Type} [LinearOrder β] (score : γ → β) (l : List γ) :
    List.Sorted (fun a b => score b ≤ score a) (sortDesc score l) := by
  induction l with
  | nil => exact List.sorted_nil
  | cons x xs ih =>
    show List.Sorted _ (orderedInsertDesc score x (sortDesc score xs))
    exact orderedInsertDesc_sorted score x ih

/-- C1: `search_functions` with parameter `n = k` returns `min k |corpus|`
results — exactly `k` when the corpus has at least `k` rows — sorted by
similarity score in non-increasing order, and when the corpus has at most
`k` rows the result lists all of the corpus's rows. -/
theorem search_functions_top_n {α β : Type} [LinearOrder β]
    (cosine_sim : List α → List α → β) (embedding : List α)
    (df : DataFrame α β) (k : Nat) :
    (search_functions cosine_sim embedding df k).2.length = min k df.rows.length
    ∧ List.Sorted (fun a b : EmbeddedRecord α × β => b.2 ≤ a.2)
        (search_functions cosine_sim embedding df k).2
    ∧ (df.rows.length ≤ k →
        ((search_functions cosine_sim embedding df k).2.map Prod.fst).Perm df.rows) := by
  refine ⟨?_, ?_, ?_⟩
  · show ((sortDesc Prod.snd (df.rows.map fun r =>
        (r, cosine_sim r.code_embedding embedding))).take k).length = _
    rw [List.length_take, (sortDesc_perm _ _).length_eq, List.length_map]
  · exact List.Pairwise.sublist (List.take_sublist _ _) (sortDesc_sorted _ _)
  · intro hk
    have hlen : (sortDesc Prod.snd (df.rows.map fun r =>
        (r, cosine_sim r.code_embedding embedding))).length ≤ k := by
      rw [(sortDesc_perm _ _).length_eq, List.length_map]
      exact hk
    have hmap : (df.rows.map fun r =>
        (r, cosine_sim r.code_embedding embedding)).map Prod.fst = df.rows := by
      rw [List.map_map]
      exact List.map_id'' (fun x => rfl) _
    show (((sortDesc Prod.snd (df.rows.map fun r =>
        (r, cosine_sim r.code_embedding embedding))).take k).map Prod.fst).Perm df.rows
    rw [List.take_of_length_le hlen]
    have hperm := (sortDesc_perm Prod.snd (df.rows.map fun r =>
      (r, cosine_sim r.code_embedding embedding))).map Prod.fst
    rw [hmap] at hperm
    exact hperm

theorem search_functions_top_n_witness :
    c1Df.rows.length ≤ 3
    ∧ (search_functions dotZ [0, 1] c1Df 3).2.map Prod.fst = [c1Row2, c1Row1]
    ∧ ((search_functions dotZ [0, 1] c1Df 3).2.length = min 3 c1Df.rows.length
      ∧ List.Sorted (fun a b : EmbeddedRecord Int × Int => b.2 ≤ a.2)
          (search_functions dotZ [0, 1] c1Df 3).2
      ∧ (c1Df.rows.length ≤ 3 →
        ((search_functions dotZ [0, 1] c1Df 3).2.map Prod.fst).Perm c1Df.rows)) :=
  ⟨by decide, by decide, search_functions_top_n dotZ [0, 1] c1Df 3⟩

/-- C8 counterexample: `search_functions` returns a DataFrame that differs
from the one passed in — it has written the `similarities` column — so a
call to search does modify the corpus structure. -/
theorem search_mutates_df_cex :
    (search_functions dotZ [] c1Df 3).1 ≠ c1Df := by decide

/-- C8 amended: a call to search leaves every record's `code`,
`function_name`, `filepath` and embedding unchanged (the rows of the
DataFrame after the call are exactly the input rows, and each result pair
carries a row of the corpus), but it writes the `similarities` column into
the caller's DataFrame. -/
theorem search_preserves_records {α β : Type} [LinearOrder β]
    (cosine_sim : List α → List α → β) (embedding : List α)
    (df : DataFrame α β) (n : Nat) :
    (search_functions cosine_sim embedding df n).1.rows = df.rows
    ∧ (search_functions cosine_sim embedding df n).1.similarities =
        some (df.rows.map fun r => cosine_sim r.code_embedding embedding)
    ∧ ∀ pr ∈ (search_functions cosine_sim embedding df n).2, pr.1 ∈ df.rows := by
  refine ⟨rfl, ?_, ?_⟩
  · show some ((df.rows.map fun r =>
        (r, cosine_sim r.code_embedding embedding)).map Prod.snd) = _
    simp
  · intro pr hpr
    have h1 : pr ∈ sortDesc Prod.snd (df.rows.map fun r =>
        (r, cosine_sim r.code_embedding embedding)) :=
      (List.take_sublist _ _).subset hpr
    have h2 : pr ∈ df.rows.map fun r => (r, cosine_sim r.code_embedding embedding) :=
      (sortDesc_perm _ _).subset h1
    obtain ⟨r, hr, rfl⟩ := List.mem_map.mp h2
    exact hr

theorem search_preserves_records_witness :
    (search_functions dotZ [0, 1] c1Df 2).1.rows = c1Df.rows
    ∧ (search_functions dotZ [0, 1] c1Df 2).1.similarities =
        some (c1Df.rows.map fun r => dotZ r.code_embedding [0, 1])
    ∧ ∀ pr ∈ (search_functions dotZ [0, 1] c1Df 2).2, pr.1 ∈ c1Df.rows :=
  search_preserves_records dotZ [0, 1] c1Df 2

theorem dotL_self_nonneg (a : List ℝ) : 0 ≤ dotL a a := by
  induction a with
  | nil => simp [dotL]
  | cons x xs ih =>
    have heq : dotL (x :: xs) (x :: xs) = x * x + dotL xs xs := by simp [dotL]
    rw [heq]
    exact add_nonneg (mul_self_nonneg x) ih

theorem dotL_self_pos {a : List ℝ} (h : ∃ x ∈ a, x ≠ 0) : 0 < dotL a a := by
  induction a with
  | nil =>
    obtain ⟨x, hx, -⟩ := h
    simp at hx
  | cons y ys ih =>
    have heq : dotL (y :: ys) (y :: ys) = y * y + dotL ys ys := by simp [dotL]
    rw [heq]
    obtain ⟨x, hx, hx0⟩ := h
    rcases List.mem_cons.mp hx with rfl | hx
    · exact add_pos_of_pos_of_nonneg (mul_self_pos.mpr hx0) (dotL_self_nonneg ys)
    · exact add_pos_of_nonneg_of_pos (mul_self_nonneg y) (ih ⟨x, hx, hx0⟩)

theorem dotL_comm (a b : List ℝ) : dotL a b = dotL b a := by
  induction a generalizing b with
  | nil => cases b <;> simp [dotL]
  | cons x xs ih =>
    cases b with
    | nil => simp [dotL]
    | cons y ys =>
      have h2 : (List.zipWith (· * ·) xs ys).sum = (List.zipWith (· * ·) ys xs).sum := by
        simpa [dotL] using ih ys
      simp only [dotL, List.zipWith_cons_cons, List.sum_cons]
      rw [mul_comm x y, h2]

/-- C9: over the real-number model of the spec's cosine formula, the
similarity of a vector having a nonzero component with itself is exactly 1
(hence within any floating-point tolerance), and similarity is symmetric
for all vectors. -/
theorem cosine_similarity_self_symm :
    (∀ a : List ℝ, (∃ x ∈ a, x ≠ 0) → cosine_similarity a a = 1)
    ∧ ∀ a b : List ℝ, cosine_similarity a b = cosine_similarity b a := by
  constructor
  · intro a h
    have hpos := dotL_self_pos h
    rw [cosine_similarity, magnitude, Real.mul_self_sqrt hpos.le, div_self hpos.ne']
  · intro a b
    rw [cosine_similarity, cosine_similarity, dotL_comm a b, mul_comm]

theorem cosine_similarity_self_symm_witness :
    (∃ x ∈ [(1 : ℝ)], x ≠ 0) ∧ cosine_similarity [(1 : ℝ)] [(1 : ℝ)] = 1
      ∧ cosine_similarity [(1 : ℝ)] [(2 : ℝ)] = cosine_similarity [(2 : ℝ)] [(1 : ℝ)] :=
  ⟨⟨1, by simp, one_ne_zero⟩,
    cosine_similarity_self_symm.1 [(1 : ℝ)] ⟨1, by simp, one_ne_zero⟩,
    cosine_similarity_self_symm.2 [(1 : ℝ)] [(2 : ℝ)]⟩

end CodeSearch
